import Mathlib

/-!
Verification development for the tree-construction core of mdSilo
(`src/src-tauri/src/tree/mod.rs`).

The source spawns a parallel filesystem walker (producers) and a single
consumer thread that receives `TraversalState` messages from an unbounded
channel.  The walker and the channel are outside the modelled core; the
consumer is deterministic given the sequence of messages it receives, so we
embed it as a function over that message list:

  * `Node` models the Entry Record (the `node` module is not part of the
    sources provided, so its data shape is modelled from the spec).
  * `stepO` models the body of the `while let Ok(TraversalState::Ongoing(node))`
    loop of `Tree::traverse` (mod.rs lines 64-88).
  * `consumeLoop` models the loop itself.
  * `asmGo` / `Tree.assemble_tree` model `Tree::assemble_tree`
    (mod.rs lines 108-133); the `fuel` argument is only a termination
    device, and the wrapper supplies provably sufficient fuel.
  * `Tree.traverse` models the consumer thread end-to-end
    (mod.rs lines 58-95).
  * `Tree.children_vec` models `Tree::children_vec` (mod.rs lines 135-148).

`HashMap<PathBuf, Vec<NodeId>>` is modelled as an association list with the
exact operations the source uses (`contains_key`, `insert`, `get_mut` + push,
`remove`); the indextree `Arena` is modelled as the list of inserted nodes
(ids are list indices, exactly as `new_node` hands out consecutive ids) plus
the parent/child links recorded during assembly.
-/

namespace MdSilo

/-- Modelled from the spec: the Entry Record (`node::Node`, whose source file
is not under `src/`).  The spec gives it a path (identity), a depth, an
optional parent path (absent only for the depth-0 record), a file/directory
kind and optional content. -/
structure Node where
  path : String
  depth : Nat
  parentPath : Option String
  isDir : Bool
  content : Option String
deriving DecidableEq, Repr

instance : Inhabited Node := ⟨⟨"", 0, none, false, none⟩⟩

/-- The Traversal Message (`visitor::TraversalState`): either one more entry
or end of stream. -/
inductive TraversalState where
  | ongoing (node : Node)
  | done
deriving DecidableEq, Repr

/-- The children-accumulator map `HashMap<PathBuf, Vec<NodeId>>`, modelled as
an association list (the source only uses `contains_key`, `insert`,
`get_mut(..).map(push)` and `remove`, all keyed lookups). -/
abbrev Branches := List (String × List Nat)

/-- `HashMap::get(k)`: first value bound to `k`. -/
def blookup : Branches → String → Option (List Nat)
  | [], _ => none
  | (k, v) :: rest, q => if k = q then some v else blookup rest q

/-- `HashMap::contains_key`. -/
def bcontains (b : Branches) (q : String) : Bool :=
  (blookup b q).isSome

/-- `HashMap::insert` (replaces the binding if the key is present). -/
def binsert : Branches → String → List Nat → Branches
  | [], q, v => [(q, v)]
  | (k, w) :: rest, q, v =>
    if k = q then (k, v) :: rest else (k, w) :: binsert rest q v

/-- `HashMap::get_mut(k).map(|r| r.push(x))`: `some` updated map when the key
is present, `none` when absent. -/
def bpush : Branches → String → Nat → Option Branches
  | [], _, _ => none
  | (k, v) :: rest, q, x =>
    if k = q then some ((k, v ++ [x]) :: rest)
    else (bpush rest q x).map (fun r => (k, v) :: r)

/-- `HashMap::remove` (drops the binding for the key, if any). -/
def bremove : Branches → String → Branches
  | [], _ => []
  | (k, v) :: rest, q => if k = q then rest else (k, v) :: bremove rest q

/-- All node ids stored in the values of an association list
(used for the accumulator buckets and for the recorded links). -/
def flatVals {α : Type} (b : List (α × List Nat)) : List Nat :=
  (b.map Prod.snd).flatten

/-- The consumer-thread state while the stream is open: the arena built so
far (`new_node` returns consecutive indices, so the arena is the list of
inserted records), the accumulator map `branches` and `root_id`. -/
structure CState where
  nodes : List Node
  branches : Branches
  rootId : Option Nat
deriving DecidableEq, Repr

/-- Consumer state at the start of `Tree::traverse`. -/
def initState : CState := ⟨[], [], none⟩

/-- One iteration of the receive loop of `Tree::traverse`
(mod.rs lines 64-88) on an `Ongoing(node)` message:
if the record is a directory, ensure a bucket for its own path exists;
if it is a depth-0 directory, make it the root (no parent resolution);
otherwise resolve the parent path (`ExpectedParent` when absent), insert the
record into the arena, and push the fresh id onto the parent bucket —
or, when the parent bucket is missing, insert an **empty** bucket for the
parent (exactly as the source does: the fresh id is not retained). -/
def stepO (st : CState) (node : Node) : Except String CState :=
  let branches0 :=
    if node.isDir && !(bcontains st.branches node.path) then
      binsert st.branches node.path []
    else st.branches
  if node.isDir && node.depth == 0 then
    .ok { nodes := st.nodes ++ [node]
          branches := branches0
          rootId := some st.nodes.length }
  else
    match node.parentPath with
    | none => .error "ExpectedParent"
    | some parent =>
      let nodeId := st.nodes.length
      let nodes1 := st.nodes ++ [node]
      match bpush branches0 parent nodeId with
      | some branches1 =>
        .ok { nodes := nodes1, branches := branches1, rootId := st.rootId }
      | none =>
        .ok { nodes := nodes1
              branches := binsert branches0 parent []
              rootId := st.rootId }

/-- The receive loop `while let Ok(TraversalState::Ongoing(node)) = rx.recv()`
over the sequence of messages the consumer receives; the loop ends on `Done`
(or when the channel closes, the end of the list), and an `ExpectedParent`
error aborts it immediately. -/
def consumeLoop (st : CState) : List TraversalState → Except String CState
  | [] => .ok st
  | .done :: _ => .ok st
  | .ongoing node :: rest =>
    match stepO st node with
    | .error e => .error e
    | .ok st1 => consumeLoop st1 rest

/-- The finished `Tree`: the arena (`inner`) as the list of nodes, the
parent/child links recorded by `assemble_tree` (`NodeId::append` calls, in
order) and the designated root id. -/
structure Tree where
  nodes : List Node
  links : List (Nat × List Nat)
  root : Nat
deriving DecidableEq, Repr

/-- `tree[id].get()` for our arena model. -/
def nodeAt (nodes : List Node) (i : Nat) : Node :=
  nodes.getD i default

/-- `tree[id].get().is_dir()`. -/
def isDirAt (nodes : List Node) (i : Nat) : Bool :=
  (nodeAt nodes i).isDir

/-- `tree[id].get().path()`. -/
def pathAt (nodes : List Node) (i : Nat) : String :=
  (nodeAt nodes i).path

/-- The recursion of `Tree::assemble_tree` (mod.rs lines 108-133) over a
worklist of nodes to assemble: for the head node, remove its accumulator
bucket (`remove(..).unwrap_or_default()`), recursively assemble every
directory child first, then record the append of all the bucket's children
under the head node, then continue with the rest of the worklist.
The output list of `(parent, children)` pairs is in the order the appends
are performed by the source.  `fuel` is a termination device only;
`Tree.assemble_tree` supplies fuel that is provably sufficient. -/
def asmGo : Nat → List Node → List Nat → Branches → Branches × List (Nat × List Nat)
  | 0, _, _, b => (b, [])
  | _ + 1, _, [], b => (b, [])
  | fuel + 1, nodes, cur :: rest, b =>
    let children := (blookup b (pathAt nodes cur)).getD []
    let b1 := bremove b (pathAt nodes cur)
    let r1 := asmGo fuel nodes (children.filter (fun c => isDirAt nodes c)) b1
    let r2 := asmGo fuel nodes rest r1.1
    (r2.1, r1.2 ++ (cur, children) :: r2.2)

/-- Fuel that suffices for `asmGo` to run the source recursion to
completion on a worklist `w` over the map `b`. -/
def enoughFuel (w : List Nat) (b : Branches) : Nat :=
  b.length + (flatVals b).length + w.length

/-- `Tree::assemble_tree(tree, current_node_id, branches)`: the recursion
started at one node, with sufficient fuel. -/
def Tree.assemble_tree (nodes : List Node) (cur : Nat) (branches : Branches) :
    Branches × List (Nat × List Nat) :=
  asmGo (enoughFuel [cur] branches) nodes [cur] branches

/-- The consumer thread of `Tree::traverse` (mod.rs lines 58-95), as a
function of the received message sequence: run the receive loop, then
require a root (`MissingRoot`), then assemble and return the tree. -/
def Tree.traverse (msgs : List TraversalState) : Except String Tree :=
  match consumeLoop initState msgs with
  | .error e => .error e
  | .ok st =>
    match st.rootId with
    | none => .error "MissingRoot"
    | some root =>
      let res := Tree.assemble_tree st.nodes root st.branches
      .ok ⟨st.nodes, res.2, root⟩

/-- The ids appended under node `i` during assembly, in append order
(indextree: the children of `i` in order). -/
def linkChildren (links : List (Nat × List Nat)) (i : Nat) : List Nat :=
  ((links.filter (fun pr => pr.1 == i)).map Prod.snd).flatten

/-- `Tree::children_vec` (mod.rs lines 135-148): the root's direct children,
cloned out of the arena, in child order. -/
def Tree.children_vec (t : Tree) : List Node :=
  (linkChildren t.links t.root).map (fun i => nodeAt t.nodes i)

/-- The parent/child structure of a tree as (parent path, child path) pairs
of its recorded links. -/
def pathEdges (t : Tree) : List (String × String) :=
  (t.links.map (fun pr => pr.2.map
    (fun c => (pathAt t.nodes pr.1, pathAt t.nodes c)))).flatten

/-! Concrete records for the spec's scenario: root `/r` with file `/r/a.txt`
and subdirectory `/r/b` containing `/r/b/c.txt`. -/

def rNode : Node := ⟨"/r", 0, none, true, none⟩
def aNode : Node := ⟨"/r/a.txt", 1, some "/r", false, none⟩
def bNode : Node := ⟨"/r/b", 1, some "/r", true, none⟩
def cNode : Node := ⟨"/r/b/c.txt", 2, some "/r/b", false, none⟩

/-- A depth-0 record of file kind (the spec allows the depth-0 record to be
of either kind; its parent path is absent, as the spec prescribes for the
depth-0 record). -/
def fNode : Node := ⟨"/f", 0, none, false, none⟩

/-- A non-root record whose parent path cannot be resolved (the spec's
"no parent path derivable" failure case). -/
def badNode : Node := ⟨"/x/b.txt", 1, none, false, none⟩

/-- The map after the bucket-ensuring step for a directory record
(mod.rs lines 65-71). -/
def ensured (b : Branches) (n : Node) : Branches :=
  if n.isDir && !(bcontains b n.path) then binsert b n.path [] else b

/-- The consumer invariant maintained while receiving: every id stored in an
accumulator bucket is a valid arena index, no id occurs in the buckets twice,
and the current root id (if any) is a valid arena index that occurs in no
bucket. -/
def INV (st : CState) : Prop :=
  (∀ x ∈ flatVals st.branches, x < st.nodes.length) ∧
  (flatVals st.branches).Nodup ∧
  (∀ r, st.rootId = some r → r < st.nodes.length ∧ r ∉ flatVals st.branches)

example :
    Tree.traverse [.ongoing rNode, .ongoing aNode, .ongoing bNode,
      .ongoing cNode, .done] =
      .ok ⟨[rNode, aNode, bNode, cNode], [(2, [3]), (0, [1, 2])], 0⟩ := rfl

example :
    Tree.traverse [.ongoing aNode, .ongoing rNode, .done] =
      .ok ⟨[aNode, rNode], [(1, [])], 1⟩ := rfl

/-! Basic facts about the association-list model of `HashMap`. -/

theorem flatVals_nil {α : Type} : flatVals ([] : List (α × List Nat)) = [] := rfl

theorem flatVals_cons {α : Type} (p : α × List Nat) (b : List (α × List Nat)) :
    flatVals (p :: b) = p.2 ++ flatVals b := by
  simp [flatVals]

theorem flatVals_append {α : Type} (b1 b2 : List (α × List Nat)) :
    flatVals (b1 ++ b2) = flatVals b1 ++ flatVals b2 := by
  simp [flatVals]

theorem mem_flatVals {α : Type} {b : List (α × List Nat)} {x : Nat} :
    x ∈ flatVals b ↔ ∃ p, p ∈ b ∧ x ∈ p.2 := by
  simp only [flatVals, List.mem_flatten, List.mem_map]
  constructor
  · rintro ⟨l, ⟨p, hp, rfl⟩, hx⟩
    exact ⟨p, hp, hx⟩
  · rintro ⟨p, hp, hx⟩
    exact ⟨p.2, ⟨p, hp, rfl⟩, hx⟩

theorem flatten_sublist {l1 l2 : List (List Nat)} (h : List.Sublist l1 l2) :
    List.Sublist l1.flatten l2.flatten := by
  induction h with
  | slnil => simp
  | cons a _ ih =>
    simpa using ih.trans (List.sublist_append_right a _)
  | cons₂ a _ ih => simpa using ih.append_left a

theorem flatVals_sublist {α : Type} {b1 b2 : List (α × List Nat)}
    (h : List.Sublist b1 b2) : List.Sublist (flatVals b1) (flatVals b2) :=
  flatten_sublist (h.map Prod.snd)

theorem blookup_none_iff {b : Branches} {q : String} :
    blookup b q = none ↔ ∀ v, (q, v) ∉ b := by
  induction b with
  | nil => simp [blookup]
  | cons p rest ih =>
    obtain ⟨k, v⟩ := p
    by_cases hk : k = q
    · subst hk
      simp only [blookup, if_pos rfl]
      constructor
      · intro h
        cases h
      · intro h
        exact absurd (List.mem_cons_self _ _) (h v)
    · simp only [blookup, if_neg hk, ih, List.mem_cons]
      constructor
      · intro h v2
        rintro (h2 | h2)
        · exact hk (congrArg Prod.fst h2).symm
        · exact h v2 h2
      · intro h v2 h2
        exact h v2 (Or.inr h2)

theorem bremove_sublist (b : Branches) (q : String) :
    List.Sublist (bremove b q) b := by
  induction b with
  | nil => simp [bremove]
  | cons p rest ih =>
    simp only [bremove]
    by_cases hk : p.1 = q
    · simp only [if_pos hk]
      exact List.sublist_cons_self p rest
    · simp only [if_neg hk]
      exact ih.cons₂ p

theorem bremove_of_lookup_none {b : Branches} {q : String}
    (h : blookup b q = none) : bremove b q = b := by
  induction b with
  | nil => rfl
  | cons p rest ih =>
    obtain ⟨k, v⟩ := p
    by_cases hk : k = q
    · simp [blookup, hk] at h
    · simp only [blookup, if_neg hk] at h
      simp [bremove, hk, ih h]

theorem blookup_some_perm {b : Branches} {q : String} {v : List Nat}
    (h : blookup b q = some v) :
    List.Perm (flatVals b) (v ++ flatVals (bremove b q)) := by
  induction b with
  | nil => simp [blookup] at h
  | cons p rest ih =>
    obtain ⟨k, w⟩ := p
    by_cases hk : k = q
    · simp only [blookup, if_pos hk] at h
      cases h
      simp [bremove, hk, flatVals_cons]
    · simp only [blookup, if_neg hk] at h
      have := ih h
      simp only [bremove, if_neg hk, flatVals_cons]
      have s1 : List.Perm (w ++ flatVals rest)
          (w ++ (v ++ flatVals (bremove rest q))) := this.append_left w
      have s2 : List.Perm (w ++ (v ++ flatVals (bremove rest q)))
          (v ++ (w ++ flatVals (bremove rest q))) := by
        simpa using (@List.perm_append_comm Nat w v).append_right
          (flatVals (bremove rest q))
      exact s1.trans s2

theorem blookup_some_length {b : Branches} {q : String} {v : List Nat}
    (h : blookup b q = some v) :
    (bremove b q).length + 1 = b.length := by
  induction b with
  | nil => simp [blookup] at h
  | cons p rest ih =>
    obtain ⟨k, w⟩ := p
    by_cases hk : k = q
    · simp [bremove, hk]
    · simp only [blookup, if_neg hk] at h
      simp [bremove, hk, ← ih h]

theorem mem_flatVals_of_lookup {b : Branches} {q : String} {v : List Nat}
    (h : blookup b q = some v) {x : Nat} (hx : x ∈ v) : x ∈ flatVals b :=
  (blookup_some_perm h).symm.subset (List.mem_append_left _ hx)

theorem blookup_none_of_sublist {b1 b2 : Branches} {q : String}
    (hs : List.Sublist b1 b2) (h : blookup b2 q = none) : blookup b1 q = none := by
  rw [blookup_none_iff] at h ⊢
  intro v hv
  exact h v (hs.subset hv)

theorem blookup_bremove_self {b : Branches} {q : String}
    (h : (b.map Prod.fst).Nodup) : blookup (bremove b q) q = none := by
  induction b with
  | nil => rfl
  | cons p rest ih =>
    obtain ⟨k, v⟩ := p
    simp only [List.map_cons, List.nodup_cons] at h
    by_cases hk : k = q
    · subst hk
      rw [blookup_none_iff]
      intro w hw
      exact h.1 (List.mem_map.mpr ⟨(k, w), by simpa [bremove] using hw, rfl⟩)
    · simp [bremove, hk, blookup, ih h.2]

theorem bpush_none_iff {b : Branches} {q : String} {x : Nat} :
    bpush b q x = none ↔ blookup b q = none := by
  induction b with
  | nil => simp [bpush, blookup]
  | cons p rest ih =>
    obtain ⟨k, v⟩ := p
    by_cases hk : k = q
    · simp [bpush, blookup, hk]
    · simp [bpush, blookup, hk, ih]

theorem bpush_flatVals_perm {b : Branches} {q : String} {x : Nat} {b2 : Branches}
    (h : bpush b q x = some b2) :
    List.Perm (flatVals b2) (x :: flatVals b) := by
  induction b generalizing b2 with
  | nil => simp [bpush] at h
  | cons p rest ih =>
    obtain ⟨k, v⟩ := p
    by_cases hk : k = q
    · simp only [bpush, if_pos hk, Option.some.injEq] at h
      subst h
      simp only [flatVals_cons]
      rw [List.append_assoc]
      exact List.perm_middle
    · simp only [bpush, if_neg hk] at h
      cases hr : bpush rest q x with
      | none => simp [hr] at h
      | some r =>
        simp only [hr, Option.map_some] at h
        cases h
        simp only [flatVals_cons]
        have s1 : List.Perm (v ++ flatVals r) (v ++ (x :: flatVals rest)) :=
          (ih hr).append_left v
        have s2 : List.Perm (v ++ (x :: flatVals rest)) (x :: (v ++ flatVals rest)) :=
          List.perm_middle
        exact s1.trans s2

theorem binsert_absent {b : Branches} {q : String} (v : List Nat)
    (h : blookup b q = none) : binsert b q v = b ++ [(q, v)] := by
  induction b with
  | nil => rfl
  | cons p rest ih =>
    obtain ⟨k, w⟩ := p
    by_cases hk : k = q
    · simp [blookup, hk] at h
    · simp only [blookup, if_neg hk] at h
      simp [binsert, hk, ih h]

theorem flatVals_binsert_nil {b : Branches} {q : String}
    (h : blookup b q = none) : flatVals (binsert b q []) = flatVals b := by
  rw [binsert_absent [] h, flatVals_append]
  simp [flatVals]

theorem bcontains_false {b : Branches} {q : String}
    (h : bcontains b q = false) : blookup b q = none := by
  unfold bcontains at h
  cases hl : blookup b q with
  | none => rfl
  | some v => rw [hl] at h; cases h

/-! Facts about one consumer step and the receive loop. -/

theorem flatVals_ensured (b : Branches) (n : Node) :
    flatVals (ensured b n) = flatVals b := by
  unfold ensured
  split
  · next hc =>
    have : bcontains b n.path = false := by
      cases hcc : bcontains b n.path
      · rfl
      · rw [hcc] at hc; simp at hc
    exact flatVals_binsert_nil (bcontains_false this)
  · rfl

theorem stepO_eq (st : CState) (n : Node) :
    stepO st n =
      (if n.isDir && n.depth == 0 then
        .ok { nodes := st.nodes ++ [n]
              branches := ensured st.branches n
              rootId := some st.nodes.length }
      else
        match n.parentPath with
        | none => .error "ExpectedParent"
        | some parent =>
          match bpush (ensured st.branches n) parent st.nodes.length with
          | some branches1 =>
            .ok { nodes := st.nodes ++ [n], branches := branches1,
                  rootId := st.rootId }
          | none =>
            .ok { nodes := st.nodes ++ [n]
                  branches := binsert (ensured st.branches n) parent []
                  rootId := st.rootId }) := rfl

theorem stepO_ok_nodes {st : CState} {n : Node} {st2 : CState}
    (h : stepO st n = .ok st2) : st2.nodes = st.nodes ++ [n] := by
  rw [stepO_eq] at h
  split at h
  · cases Except.ok.inj h
    rfl
  · split at h
    · exact Except.noConfusion h
    · split at h
      · cases Except.ok.inj h
        rfl
      · cases Except.ok.inj h
        rfl

theorem stepO_ok_rootId {st : CState} {n : Node} {st2 : CState}
    (h : stepO st n = .ok st2) :
    st2.rootId = if n.isDir && n.depth == 0 then some st.nodes.length
                 else st.rootId := by
  rw [stepO_eq] at h
  split at h
  · next hr =>
    cases Except.ok.inj h
    simp [hr]
  · next hr =>
    rw [if_neg hr]
    split at h
    · exact Except.noConfusion h
    · split at h
      · cases Except.ok.inj h
        rfl
      · cases Except.ok.inj h
        rfl

theorem stepO_error_iff {st : CState} {n : Node} {e : String} :
    stepO st n = .error e ↔
      ((n.isDir && n.depth == 0) = false ∧ n.parentPath = none ∧
        e = "ExpectedParent") := by
  rw [stepO_eq]
  by_cases hr : (n.isDir && n.depth == 0) = true
  · simp [hr]
  · rw [if_neg hr]
    cases hp : n.parentPath with
    | none =>
      simp only [hp, eq_self_iff_true, true_and]
      constructor
      · intro h
        exact ⟨by simpa using hr, (Except.error.inj h).symm⟩
      · rintro ⟨-, rfl⟩
        rfl
    | some parent =>
      simp only [hp]
      split <;> simp [hp]

theorem INV_initState : INV initState := by
  refine ⟨?_, ?_, ?_⟩ <;> simp [initState, flatVals]

theorem INV_stepO {st : CState} {n : Node} {st2 : CState}
    (hinv : INV st) (h : stepO st n = .ok st2) : INV st2 := by
  obtain ⟨h1, h2, h3⟩ := hinv
  have hfv := flatVals_ensured st.branches n
  have hlen : (st.nodes ++ [n]).length = st.nodes.length + 1 := by simp
  rw [stepO_eq] at h
  split at h
  · cases Except.ok.inj h
    refine ⟨?_, ?_, ?_⟩
    · intro x hx
      rw [hfv] at hx
      exact (h1 x hx).trans (by simp)
    · simpa [hfv] using h2
    · intro r hr
      cases Option.some.inj hr
      refine ⟨by simp, ?_⟩
      rw [hfv]
      intro hmem
      exact absurd (h1 _ hmem) (lt_irrefl _)
  · split at h
    · exact Except.noConfusion h
    · split at h
      · next branches1 hpush =>
        cases Except.ok.inj h
        have hperm := bpush_flatVals_perm hpush
        have hmem : ∀ x, x ∈ flatVals branches1 ↔
            x = st.nodes.length ∨ x ∈ flatVals st.branches := by
          intro x
          rw [hperm.mem_iff, List.mem_cons, hfv]
        refine ⟨?_, ?_, ?_⟩
        · intro x hx
          rcases (hmem x).mp hx with rfl | hx2
          · simp
          · exact (h1 x hx2).trans (by simp)
        · rw [hperm.nodup_iff]
          refine List.Nodup.cons ?_ (by simpa [hfv] using h2)
          rw [hfv]
          intro hmem2
          exact absurd (h1 _ hmem2) (lt_irrefl _)
        · intro r hr
          obtain ⟨hr1, hr2⟩ := h3 r hr
          refine ⟨hr1.trans (by simp), ?_⟩
          intro hmem2
          rcases (hmem r).mp hmem2 with rfl | hx2
          · exact absurd hr1 (lt_irrefl _)
          · exact hr2 hx2
      · next hpush =>
        cases Except.ok.inj h
        have hnone : blookup (ensured st.branches n) _ = none :=
          bpush_none_iff.mp hpush
        have hfv2 := flatVals_binsert_nil hnone
        refine ⟨?_, ?_, ?_⟩
        · intro x hx
          rw [hfv2, hfv] at hx
          exact (h1 x hx).trans (by simp)
        · simpa [hfv2, hfv] using h2
        · intro r hr
          obtain ⟨hr1, hr2⟩ := h3 r hr
          refine ⟨hr1.trans (by simp), ?_⟩
          rw [hfv2, hfv]
          exact hr2

theorem INV_consumeLoop {st st2 : CState} {msgs : List TraversalState}
    (hinv : INV st) (h : consumeLoop st msgs = .ok st2) : INV st2 := by
  induction msgs generalizing st with
  | nil =>
    cases Except.ok.inj h
    exact hinv
  | cons m rest ih =>
    cases m with
    | done =>
      cases Except.ok.inj h
      exact hinv
    | ongoing n =>
      simp only [consumeLoop] at h
      cases hs : stepO st n with
      | error e => rw [hs] at h; exact Except.noConfusion h
      | ok st1 =>
        rw [hs] at h
        exact ih (INV_stepO hinv hs) h

theorem consumeLoop_length {rs : List Node} {st st2 : CState}
    (h : consumeLoop st (rs.map .ongoing ++ [.done]) = .ok st2) :
    st2.nodes.length = st.nodes.length + rs.length := by
  induction rs generalizing st with
  | nil =>
    cases Except.ok.inj h
    simp
  | cons r rest ih =>
    simp only [List.map_cons, List.cons_append, consumeLoop] at h
    cases hs : stepO st r with
    | error e => rw [hs] at h; exact Except.noConfusion h
    | ok st1 =>
      rw [hs] at h
      have := ih h
      have hn := stepO_ok_nodes hs
      rw [this, hn]
      simp
      omega

/-! Facts about the assembly recursion. -/

theorem asmGo_nil_work (fuel : Nat) (nodes : List Node) (b : Branches) :
    asmGo fuel nodes [] b = (b, []) := by
  cases fuel <;> rfl

theorem asmGo_branches_sublist (fuel : Nat) (nodes : List Node)
    (w : List Nat) (b : Branches) :
    List.Sublist (asmGo fuel nodes w b).1 b := by
  induction fuel generalizing w b with
  | zero => exact List.Sublist.refl b
  | succ fuel ih =>
    cases w with
    | nil => rw [asmGo_nil_work]
    | cons cur rest =>
      simp only [asmGo]
      exact ((ih _ _).trans (ih _ _)).trans (bremove_sublist b _)

theorem perm_shift (v a c : List Nat) :
    List.Perm (v ++ (a ++ c)) (a ++ (v ++ c)) := by
  have := (@List.perm_append_comm Nat v a).append_right c
  rwa [List.append_assoc, List.append_assoc] at this

theorem asmGo_perm (fuel : Nat) (nodes : List Node) (w : List Nat) (b : Branches) :
    List.Perm (flatVals b)
      (flatVals (asmGo fuel nodes w b).2 ++ flatVals (asmGo fuel nodes w b).1) := by
  induction fuel generalizing w b with
  | zero => simp [asmGo, flatVals]
  | succ fuel ih =>
    cases w with
    | nil =>
      rw [asmGo_nil_work]
      simp [flatVals]
    | cons cur rest =>
      simp only [asmGo]
      cases hl : blookup b (pathAt nodes cur) with
      | none =>
        rw [bremove_of_lookup_none hl]
        simp only [hl, Option.getD_none, List.filter_nil, asmGo_nil_work]
        have h2 := ih rest b
        simp only [flatVals_cons, flatVals_append, flatVals_nil,
          List.nil_append, List.append_nil] at h2 ⊢
        exact h2
      | some v =>
        have h0 := blookup_some_perm hl
        simp only [hl, Option.getD_some]
        have h1 := ih (v.filter (fun c => isDirAt nodes c))
          (bremove b (pathAt nodes cur))
        have h2 := ih rest
          (asmGo fuel nodes (v.filter (fun c => isDirAt nodes c))
            (bremove b (pathAt nodes cur))).1
        -- abbreviations
        generalize (asmGo fuel nodes (v.filter (fun c => isDirAt nodes c))
          (bremove b (pathAt nodes cur))) = r1 at h1 h2 ⊢
        generalize asmGo fuel nodes rest r1.1 = r2 at h2 ⊢
        have chain : List.Perm (flatVals b)
            (v ++ (flatVals r1.2 ++ (flatVals r2.2 ++ flatVals r2.1))) :=
          h0.trans ((h1.trans (h2.append_left _)).append_left v)
        have shift : List.Perm
            (v ++ (flatVals r1.2 ++ (flatVals r2.2 ++ flatVals r2.1)))
            (flatVals r1.2 ++ (v ++ (flatVals r2.2 ++ flatVals r2.1))) :=
          perm_shift v (flatVals r1.2) (flatVals r2.2 ++ flatVals r2.1)
        have goal2 := chain.trans shift
        simp only [flatVals_cons, flatVals_append, List.append_assoc]
        simpa [List.append_assoc] using goal2

theorem asmGo_cons_snd (fuel : Nat) (nodes : List Node) (cur : Nat)
    (rest : List Nat) (b : Branches) :
    (asmGo (fuel + 1) nodes (cur :: rest) b).2 =
      (asmGo fuel nodes
          (((blookup b (pathAt nodes cur)).getD []).filter
            (fun c => isDirAt nodes c))
          (bremove b (pathAt nodes cur))).2 ++
        (cur, (blookup b (pathAt nodes cur)).getD []) ::
          (asmGo fuel nodes rest
            (asmGo fuel nodes
              (((blookup b (pathAt nodes cur)).getD []).filter
                (fun c => isDirAt nodes c))
              (bremove b (pathAt nodes cur))).1).2 := rfl

theorem asmGo_cons_fst (fuel : Nat) (nodes : List Node) (cur : Nat)
    (rest : List Nat) (b : Branches) :
    (asmGo (fuel + 1) nodes (cur :: rest) b).1 =
      (asmGo fuel nodes rest
        (asmGo fuel nodes
          (((blookup b (pathAt nodes cur)).getD []).filter
            (fun c => isDirAt nodes c))
          (bremove b (pathAt nodes cur))).1).1 := rfl

theorem asmGo_keys_sub (fuel : Nat) (nodes : List Node) (w : List Nat)
    (b : Branches) {p : Nat} {cs : List Nat}
    (h : (p, cs) ∈ (asmGo fuel nodes w b).2) : p ∈ w ∨ p ∈ flatVals b := by
  induction fuel generalizing w b with
  | zero => simp [asmGo] at h
  | succ fuel ih =>
    cases w with
    | nil =>
      rw [asmGo_nil_work] at h
      simp at h
    | cons cur rest =>
      rw [asmGo_cons_snd] at h
      rcases List.mem_append.mp h with h1 | h1
      · rcases ih _ _ h1 with hw | hb
        · have hc := (List.mem_filter.mp hw).1
          cases hl : blookup b (pathAt nodes cur) with
          | none =>
            rw [hl] at hc
            simp at hc
          | some v =>
            rw [hl] at hc
            exact Or.inr (mem_flatVals_of_lookup hl (by simpa using hc))
        · exact Or.inr ((flatVals_sublist (bremove_sublist b _)).subset hb)
      · rcases List.mem_cons.mp h1 with heq | h2
        · rw [Prod.mk.injEq] at heq
          exact Or.inl (heq.1 ▸ List.mem_cons_self _ _)
        · rcases ih _ _ h2 with hw | hb
          · exact Or.inl (List.mem_cons_of_mem _ hw)
          · have s1 := (asmGo_branches_sublist fuel nodes
              (((blookup b (pathAt nodes cur)).getD []).filter
                (fun c => isDirAt nodes c))
              (bremove b (pathAt nodes cur))).trans
              (bremove_sublist b (pathAt nodes cur))
            exact Or.inr ((flatVals_sublist s1).subset hb)

theorem asmGo_emits_all (fuel : Nat) (nodes : List Node) (w : List Nat)
    (b : Branches) (hfuel : enoughFuel w b ≤ fuel) {cur : Nat} (hcur : cur ∈ w) :
    ∃ cs, (cur, cs) ∈ (asmGo fuel nodes w b).2 := by
  induction fuel generalizing w b with
  | zero =>
    exfalso
    have hw : w.length = 0 := by
      unfold enoughFuel at hfuel
      omega
    rw [List.length_eq_zero] at hw
    subst hw
    simp at hcur
  | succ fuel ih =>
    cases w with
    | nil => simp at hcur
    | cons cur0 rest =>
      rw [asmGo_cons_snd]
      rcases List.mem_cons.mp hcur with rfl | hmem
      · exact ⟨_, List.mem_append_right _ (List.mem_cons_self _ _)⟩
      · have s1 := (asmGo_branches_sublist fuel nodes
          (((blookup b (pathAt nodes cur0)).getD []).filter
            (fun c => isDirAt nodes c))
          (bremove b (pathAt nodes cur0))).trans
          (bremove_sublist b (pathAt nodes cur0))
        have hfuel2 : enoughFuel rest
            (asmGo fuel nodes
              (((blookup b (pathAt nodes cur0)).getD []).filter
                (fun c => isDirAt nodes c))
              (bremove b (pathAt nodes cur0))).1 ≤ fuel := by
          have l1 := s1.length_le
          have l2 := (flatVals_sublist s1).length_le
          unfold enoughFuel at hfuel ⊢
          simp only [List.length_cons] at hfuel
          omega
        obtain ⟨cs, hcs⟩ := ih rest _ hfuel2 hmem
        exact ⟨cs, List.mem_append_right _ (List.mem_cons_of_mem _ hcs)⟩

theorem asmGo_postorder (fuel : Nat) (nodes : List Node) (w : List Nat)
    (b : Branches) (hfuel : enoughFuel w b ≤ fuel)
    {l1 l2 : List (Nat × List Nat)} {p : Nat} {cs : List Nat}
    (heq : (asmGo fuel nodes w b).2 = l1 ++ (p, cs) :: l2)
    {c : Nat} (hc : c ∈ cs) (hdir : isDirAt nodes c = true) :
    ∃ cs2, (c, cs2) ∈ l1 := by
  induction fuel generalizing w b l1 l2 p cs with
  | zero =>
    simp [asmGo] at heq
  | succ fuel ih =>
    cases w with
    | nil =>
      rw [asmGo_nil_work] at heq
      simp at heq
    | cons cur rest =>
      rw [asmGo_cons_snd] at heq
      have hfuel1 : ∀ v, blookup b (pathAt nodes cur) = some v →
          enoughFuel (v.filter (fun x => isDirAt nodes x))
            (bremove b (pathAt nodes cur)) ≤ fuel := by
        intro v hl
        have e1 := blookup_some_length hl
        have e2 := (blookup_some_perm hl).length_eq
        rw [List.length_append] at e2
        have e3 : (v.filter (fun x => isDirAt nodes x)).length ≤ v.length :=
          List.length_filter_le _ v
        unfold enoughFuel at hfuel ⊢
        simp only [List.length_cons] at hfuel
        omega
      have s1 := (asmGo_branches_sublist fuel nodes
        (((blookup b (pathAt nodes cur)).getD []).filter
          (fun c => isDirAt nodes c))
        (bremove b (pathAt nodes cur))).trans
        (bremove_sublist b (pathAt nodes cur))
      have hfuel2 : enoughFuel rest
          (asmGo fuel nodes
            (((blookup b (pathAt nodes cur)).getD []).filter
              (fun c => isDirAt nodes c))
            (bremove b (pathAt nodes cur))).1 ≤ fuel := by
        have g1 := s1.length_le
        have g2 := (flatVals_sublist s1).length_le
        unfold enoughFuel at hfuel ⊢
        simp only [List.length_cons] at hfuel
        omega
      rcases List.append_eq_append_iff.mp heq with ⟨a2, hL, hR⟩ | ⟨c2, hL, hR⟩
      · cases a2 with
        | nil =>
          simp only [List.append_nil] at hL
          rw [List.nil_append] at hR
          rcases List.cons.injEq .. |>.mp hR with ⟨hpair, -⟩
          rcases Prod.mk.injEq .. |>.mp hpair with ⟨-, hcs2⟩
          subst hcs2
          cases hl : blookup b (pathAt nodes cur) with
          | none =>
            rw [hl] at hc
            simp at hc
          | some v =>
            rw [hl] at hc
            simp only [Option.getD_some] at hc
            have hcf : c ∈ v.filter (fun x => isDirAt nodes x) :=
              List.mem_filter.mpr ⟨hc, hdir⟩
            obtain ⟨cs2, hcs2⟩ := asmGo_emits_all fuel nodes _ _ (hfuel1 v hl) hcf
            refine ⟨cs2, ?_⟩
            rw [hL]
            simpa [hl] using hcs2
        | cons x a2t =>
          rw [List.cons_append] at hR
          rcases List.cons.injEq .. |>.mp hR with ⟨hx, hrest⟩
          obtain ⟨cs2, hcs2⟩ := ih rest _ hfuel2 hrest hc
          refine ⟨cs2, ?_⟩
          rw [hL, ← hx]
          exact List.mem_append_right _ (List.mem_cons_of_mem _ hcs2)
      · cases c2 with
        | nil =>
          rw [List.append_nil] at hL
          rw [List.nil_append] at hR
          rcases List.cons.injEq .. |>.mp hR.symm with ⟨hpair, -⟩
          rcases Prod.mk.injEq .. |>.mp hpair with ⟨-, hcs2⟩
          subst hcs2
          cases hl : blookup b (pathAt nodes cur) with
          | none =>
            rw [hl] at hc
            simp at hc
          | some v =>
            rw [hl] at hc
            simp only [Option.getD_some] at hc
            have hcf : c ∈ v.filter (fun x => isDirAt nodes x) :=
              List.mem_filter.mpr ⟨hc, hdir⟩
            obtain ⟨cs2, hcs2⟩ := asmGo_emits_all fuel nodes _ _ (hfuel1 v hl) hcf
            refine ⟨cs2, ?_⟩
            rw [← hL]
            simpa [hl] using hcs2
        | cons y c2t =>
          rw [List.cons_append] at hR
          rcases List.cons.injEq .. |>.mp hR with ⟨hy, -⟩
          rw [← hy] at hL
          cases hl : blookup b (pathAt nodes cur) with
          | none =>
            rw [hl] at hL
            rw [bremove_of_lookup_none hl] at hL
            simp only [Option.getD_none, List.filter_nil, asmGo_nil_work] at hL
            simp at hL
          | some v =>
            rw [hl] at hL
            simp only [Option.getD_some] at hL
            obtain ⟨cs2, hcs2⟩ := ih
              (v.filter (fun x => isDirAt nodes x))
              (bremove b (pathAt nodes cur)) (hfuel1 v hl) hL hc
            exact ⟨cs2, hcs2⟩

/-- In a link list whose flattened children are duplicate-free, no id can sit
in the children of two different parents. -/
theorem flatVals_nodup_unique_parent {ls : List (Nat × List Nat)}
    (hnd : (flatVals ls).Nodup) {p q c : Nat} {cs cs2 : List Nat}
    (h1 : (p, cs) ∈ ls) (h2 : (q, cs2) ∈ ls)
    (hc1 : c ∈ cs) (hc2 : c ∈ cs2) : p = q := by
  induction ls with
  | nil => simp at h1
  | cons hd tl ih =>
    rw [flatVals_cons] at hnd
    have hdisj := List.disjoint_of_nodup_append hnd
    rcases List.mem_cons.mp h1 with heq1 | h1t
    · rcases List.mem_cons.mp h2 with heq2 | h2t
      · rw [← heq2] at heq1
        exact (Prod.mk.injEq .. |>.mp heq1).1
      · exfalso
        have hcl : c ∈ hd.2 := by rw [← heq1]; exact hc1
        have hcr : c ∈ flatVals tl := mem_flatVals.mpr ⟨(q, cs2), h2t, hc2⟩
        exact hdisj hcl hcr
    · rcases List.mem_cons.mp h2 with heq2 | h2t
      · exfalso
        have hcl : c ∈ hd.2 := by rw [← heq2]; exact hc2
        have hcr : c ∈ flatVals tl := mem_flatVals.mpr ⟨(p, cs), h1t, hc1⟩
        exact hdisj hcl hcr
      · exact ih (hnd.of_append_right) h1t h2t

theorem assemble_tree_eq (nodes : List Node) (cur : Nat) (b : Branches) :
    Tree.assemble_tree nodes cur b =
      ((asmGo (b.length + (flatVals b).length) nodes
          (((blookup b (pathAt nodes cur)).getD []).filter
            (fun c => isDirAt nodes c))
          (bremove b (pathAt nodes cur))).1,
        (asmGo (b.length + (flatVals b).length) nodes
          (((blookup b (pathAt nodes cur)).getD []).filter
            (fun c => isDirAt nodes c))
          (bremove b (pathAt nodes cur))).2 ++
          [(cur, (blookup b (pathAt nodes cur)).getD [])]) := by
  unfold Tree.assemble_tree
  have hfe : enoughFuel [cur] b = (b.length + (flatVals b).length) + 1 := by
    simp [enoughFuel]
  rw [hfe]
  refine Prod.ext ?_ ?_
  · rw [asmGo_cons_fst, asmGo_nil_work]
  · rw [asmGo_cons_snd, asmGo_nil_work]

theorem assemble_tree_snd (nodes : List Node) (cur : Nat) (b : Branches) :
    (Tree.assemble_tree nodes cur b).2 =
      (asmGo (b.length + (flatVals b).length) nodes
        (((blookup b (pathAt nodes cur)).getD []).filter
          (fun c => isDirAt nodes c))
        (bremove b (pathAt nodes cur))).2 ++
        [(cur, (blookup b (pathAt nodes cur)).getD [])] := by
  rw [assemble_tree_eq]

theorem assemble_tree_fst (nodes : List Node) (cur : Nat) (b : Branches) :
    (Tree.assemble_tree nodes cur b).1 =
      (asmGo (b.length + (flatVals b).length) nodes
        (((blookup b (pathAt nodes cur)).getD []).filter
          (fun c => isDirAt nodes c))
        (bremove b (pathAt nodes cur))).1 := by
  rw [assemble_tree_eq]

theorem traverse_ok_elim {msgs : List TraversalState} {t : Tree}
    (h : Tree.traverse msgs = .ok t) :
    ∃ st root, consumeLoop initState msgs = .ok st ∧ st.rootId = some root ∧
      t = ⟨st.nodes, (Tree.assemble_tree st.nodes root st.branches).2, root⟩ := by
  cases hc : consumeLoop initState msgs with
  | error e =>
    simp only [Tree.traverse, hc] at h
    exact Except.noConfusion h
  | ok st =>
    simp only [Tree.traverse, hc] at h
    cases hr : st.rootId with
    | none =>
      simp only [hr] at h
      exact Except.noConfusion h
    | some root =>
      simp only [hr] at h
      exact ⟨st, root, rfl, hr, (Except.ok.inj h).symm⟩

/-! Helper for the missing-root claim. -/

theorem consumeLoop_no_root (rs : List Node) (st : CState)
    (hp : ∀ r ∈ rs, r.parentPath ≠ none)
    (hd : ∀ r ∈ rs, (r.isDir && r.depth == 0) = false) :
    ∃ st2, consumeLoop st (rs.map .ongoing ++ [.done]) = .ok st2 ∧
      st2.rootId = st.rootId := by
  induction rs generalizing st with
  | nil => exact ⟨st, rfl, rfl⟩
  | cons r rest ih =>
    cases hs : stepO st r with
    | error e =>
      obtain ⟨h1, h2, h3⟩ := stepO_error_iff.mp hs
      exact absurd h2 (hp r (List.mem_cons_self _ _))
    | ok st1 =>
      obtain ⟨st2, hloop, hroot⟩ := ih st1
        (fun x hx => hp x (List.mem_cons_of_mem _ hx))
        (fun x hx => hd x (List.mem_cons_of_mem _ hx))
      refine ⟨st2, ?_, ?_⟩
      · simp only [List.map_cons, List.cons_append, consumeLoop, hs]
        exact hloop
      · rw [hroot, stepO_ok_rootId hs,
          if_neg (by rw [hd r (List.mem_cons_self _ _)]; simp)]

/-! The claims. -/

/-- Claim C1 (code bug, evaluated at the failing input): the claim — from the
spec's assembler contract — says that for every non-root record the fresh
node id is appended to the parent's children-accumulator bucket, the bucket
being created on demand when the parent has not been seen yet, so that no
record in the stream is silently omitted from the final tree.  The code
(mod.rs lines 82-87) instead inserts an **empty** bucket when the parent
bucket is missing and discards the fresh id.  Evaluating the embedded code on
the stream `[a.txt (child of /r), /r (root dir), Done]`: construction
succeeds, the arena holds both records, but the root has no linked children —
`a.txt` is silently dropped, contradicting the claim. -/
theorem claim1_child_dropped_eval :
    Tree.traverse [.ongoing aNode, .ongoing rNode, .done] =
      .ok ⟨[aNode, rNode], [(1, [])], 1⟩ ∧
    (⟨[aNode, rNode], [(1, [])], 1⟩ : Tree).nodes.length = 2 ∧
    Tree.children_vec ⟨[aNode, rNode], [(1, [])], 1⟩ = [] :=
  ⟨rfl, rfl, rfl⟩

/-- Claim C2 (counterexample): the claim says the missing-parent failure is
surfaced only after `Done` has been received, never mid-stream.  In the code
the `ExpectedParent` error is raised by the `?` operator inside the receive
loop (mod.rs line 78) the moment the offending record is processed: the
embedded loop returns the error on the stream `[bad]` in which no `Done` is
ever received, and returns the very same error with or without the rest of
the stream — the failure is decided mid-stream, before `Done`. -/
theorem claim2_counterexample :
    consumeLoop initState [.ongoing badNode] = .error "ExpectedParent" ∧
    consumeLoop initState [.ongoing badNode, .ongoing rNode, .done] =
      .error "ExpectedParent" ∧
    Tree.traverse [.ongoing badNode, .ongoing rNode, .done] =
      .error "ExpectedParent" :=
  ⟨rfl, rfl, rfl⟩

/-- Claim C2 (amended): the missing-root failure is surfaced only after the
stream is drained (the `root_id.ok_or` check runs after the receive loop
ends), but the missing-parent (`ExpectedParent`) failure is raised
immediately when the offending record is processed, aborting consumption —
the result is the error no matter what follows, including the `Done`
message; in both cases assembly makes no partial recovery. -/
theorem claim2_amended :
    (∀ (st : CState) (n : Node) (rest : List TraversalState),
      (n.isDir && n.depth == 0) = false → n.parentPath = none →
      consumeLoop st (.ongoing n :: rest) = .error "ExpectedParent") ∧
    (∀ (msgs : List TraversalState) (st : CState),
      consumeLoop initState msgs = .ok st → st.rootId = none →
      Tree.traverse msgs = .error "MissingRoot") := by
  constructor
  · intro st n rest h1 h2
    have herr : stepO st n = .error "ExpectedParent" :=
      stepO_error_iff.mpr ⟨h1, h2, rfl⟩
    simp [consumeLoop, herr]
  · intro msgs st h1 h2
    simp [Tree.traverse, h1, h2]

/-- Witness for the amended Claim C2 at concrete inputs. -/
theorem claim2_amended_witness :
    consumeLoop initState [.ongoing badNode, .done] = .error "ExpectedParent" ∧
    Tree.traverse [.ongoing aNode, .done] = .error "MissingRoot" :=
  ⟨claim2_amended.1 initState badNode [.done] rfl rfl,
   claim2_amended.2 [.ongoing aNode, .done] ⟨[aNode], [("/r", [])], none⟩ rfl rfl⟩

/-- Claim C3 (code bug, evaluated at the failing input): for the spec's
concrete scenario (root `/r`, file `/r/a.txt`, directory `/r/b`, file
`/r/b/c.txt`) the claim says every arrival order yields a tree with root
children `{a.txt, b}` and `b`-children `{c.txt}`.  The order
`[root, a, b, c]` does (first three conjuncts), but the order
`[a, root, b, c]` — `a.txt` arriving before its parent — yields a root with
children `{b}` only: `a.txt` is dropped by the empty-bucket fallback
(mod.rs line 86), contradicting the claim. -/
theorem claim3_order_dependent_eval :
    Tree.traverse [.ongoing rNode, .ongoing aNode, .ongoing bNode,
        .ongoing cNode, .done] =
      .ok ⟨[rNode, aNode, bNode, cNode], [(2, [3]), (0, [1, 2])], 0⟩ ∧
    Tree.children_vec ⟨[rNode, aNode, bNode, cNode],
        [(2, [3]), (0, [1, 2])], 0⟩ = [aNode, bNode] ∧
    (linkChildren [(2, [3]), (0, [1, 2])] 2).map
        (nodeAt [rNode, aNode, bNode, cNode]) = [cNode] ∧
    Tree.traverse [.ongoing aNode, .ongoing rNode, .ongoing bNode,
        .ongoing cNode, .done] =
      .ok ⟨[aNode, rNode, bNode, cNode], [(2, [3]), (1, [2])], 1⟩ ∧
    Tree.children_vec ⟨[aNode, rNode, bNode, cNode],
        [(2, [3]), (1, [2])], 1⟩ = [bNode] :=
  ⟨rfl, rfl, rfl, rfl, rfl⟩

/-- Claim C4 (code bug, evaluated at the failing input): the claim says any
two streams that are permutations of the same record multiset construct
trees with the same node count and the same parent/child path structure.
The two streams `[/r, /r/a.txt, Done]` and `[/r/a.txt, /r, Done]` are
permutations of the same records and give the same node count, yet the
first tree has the path edge `(/r, /r/a.txt)` while the second has no edges
at all (the child arriving first is dropped by mod.rs line 86), so the
structures differ. -/
theorem claim4_structure_divergence_eval :
    List.Perm [rNode, aNode] [aNode, rNode] ∧
    Tree.traverse [.ongoing rNode, .ongoing aNode, .done] =
      .ok ⟨[rNode, aNode], [(0, [1])], 0⟩ ∧
    Tree.traverse [.ongoing aNode, .ongoing rNode, .done] =
      .ok ⟨[aNode, rNode], [(1, [])], 1⟩ ∧
    (⟨[rNode, aNode], [(0, [1])], 0⟩ : Tree).nodes.length =
      (⟨[aNode, rNode], [(1, [])], 1⟩ : Tree).nodes.length ∧
    pathEdges ⟨[rNode, aNode], [(0, [1])], 0⟩ = [("/r", "/r/a.txt")] ∧
    pathEdges ⟨[aNode, rNode], [(1, [])], 1⟩ = [] :=
  ⟨by decide, rfl, rfl, rfl, rfl, rfl⟩

/-- Claim C5 (counterexample): the claim says every depth-0 record, whatever
its kind, is designated the root with no parent resolution.  The code nests
the depth-0 check inside `if node.is_dir()` (mod.rs lines 65-75), so a
depth-0 record of file kind falls through to parent resolution: on the
stream `[f (file, depth 0, no parent path), Done]` the embedded consumer
errors with `ExpectedParent` instead of designating `f` the root. -/
theorem claim5_counterexample :
    fNode.depth = 0 ∧
    Tree.traverse [.ongoing fNode, .done] = .error "ExpectedParent" :=
  ⟨rfl, rfl⟩

/-- Claim C5 (amended): only for a received **directory** record with depth 0
does the assembler designate it the root (the id of the freshly inserted
arena node) without attempting to resolve its parent path — the step
succeeds whatever the record's parent-path field holds; a depth-0 file
record is instead treated like any non-root record and has its parent path
resolved. -/
theorem claim5_amended (st : CState) (n : Node) (hdir : n.isDir = true)
    (hdepth : n.depth = 0) :
    ∃ st2, stepO st n = .ok st2 ∧ st2.rootId = some st.nodes.length ∧
      st2.nodes = st.nodes ++ [n] := by
  have hcond : (n.isDir && n.depth == 0) = true := by simp [hdir, hdepth]
  exact ⟨_, by rw [stepO_eq, if_pos hcond], rfl, rfl⟩

/-- Witness for the amended Claim C5 at a concrete input. -/
theorem claim5_amended_witness :
    ∃ st2, stepO initState rNode = .ok st2 ∧ st2.rootId = some 0 ∧
      st2.nodes = [rNode] :=
  claim5_amended initState rNode rfl rfl

/-- Claim C6 (confirmed): during assembly the current node's accumulator
bucket is destructively removed (no binding for its path remains in the
returned map, given the well-formed unique keys a `HashMap` guarantees);
every directory child's own subtree is assembled strictly before the pair
linking it appears (in the append-ordered link list, each pair's directory
children already have their own pair in the preceding prefix); and the
current node's own link pair — carrying exactly the removed bucket,
possibly empty when the bucket was absent — is recorded last, after all
recursive assembly. -/
theorem claim6_postorder_assembly (nodes : List Node) (cur : Nat)
    (b : Branches) (hkeys : (b.map Prod.fst).Nodup) :
    blookup (Tree.assemble_tree nodes cur b).1 (pathAt nodes cur) = none ∧
    (Tree.assemble_tree nodes cur b).2.getLast? =
      some (cur, (blookup b (pathAt nodes cur)).getD []) ∧
    (∀ l1 p cs l2, (Tree.assemble_tree nodes cur b).2 = l1 ++ (p, cs) :: l2 →
      ∀ c ∈ cs, isDirAt nodes c = true → ∃ cs2, (c, cs2) ∈ l1) := by
  refine ⟨?_, ?_, ?_⟩
  · rw [assemble_tree_fst]
    exact blookup_none_of_sublist
      (asmGo_branches_sublist _ nodes _ (bremove b (pathAt nodes cur)))
      (blookup_bremove_self hkeys)
  · rw [assemble_tree_snd]
    exact List.getLast?_concat _
  · intro l1 p cs l2 hsplit c hc hdir
    exact asmGo_postorder (enoughFuel [cur] b) nodes [cur] b (le_refl _)
      hsplit hc hdir

/-- Witness for Claim C6 at a concrete input. -/
theorem claim6_witness :
    blookup (Tree.assemble_tree [rNode, aNode] 0 [("/r", [1])]).1 "/r" =
      none ∧
    (Tree.assemble_tree [rNode, aNode] 0 [("/r", [1])]).2.getLast? =
      some (0, [1]) := by
  have h := claim6_postorder_assembly [rNode, aNode] 0 [("/r", [1])]
    (by decide)
  exact ⟨h.1, h.2.1⟩

/-- Claim C7 (confirmed): for every stream that ends in `Done`, in which
every record has a resolvable parent path and no record has depth 0, the
embedded consumer runs the whole stream without error, finds no root and
fails with `MissingRoot` — it never returns a rootless tree. -/
theorem claim7_missing_root (rs : List Node)
    (hp : ∀ r ∈ rs, r.parentPath ≠ none)
    (hd : ∀ r ∈ rs, r.depth ≠ 0) :
    Tree.traverse (rs.map .ongoing ++ [.done]) = .error "MissingRoot" := by
  have hd2 : ∀ r ∈ rs, (r.isDir && r.depth == 0) = false := by
    intro r hr
    cases h0 : (r.depth == 0) with
    | true =>
      rw [beq_iff_eq] at h0
      exact absurd h0 (hd r hr)
    | false => simp [h0]
  obtain ⟨st2, hloop, hroot⟩ := consumeLoop_no_root rs initState hp hd2
  have hroot2 : st2.rootId = none := by rw [hroot]; rfl
  simp [Tree.traverse, hloop, hroot2]

/-- Witness for Claim C7 at a concrete input. -/
theorem claim7_witness :
    Tree.traverse ([aNode, cNode].map .ongoing ++ [.done]) =
      .error "MissingRoot" :=
  claim7_missing_root [aNode, cNode] (by decide) (by decide)

/-- Claim C8 (confirmed): for every constructed tree, every child id listed
in any recorded link is a valid index into the arena, and no id is linked
under two different parents — the links form a tree, not a graph.  (Each id
is pushed into at most one bucket during consumption and each bucket is
removed at most once during assembly, which is what the proof tracks via
the no-duplicates invariant and the assembly permutation lemma.) -/
theorem claim8_tree_not_graph (msgs : List TraversalState) (t : Tree)
    (h : Tree.traverse msgs = .ok t) :
    (∀ p cs, (p, cs) ∈ t.links → ∀ c ∈ cs, c < t.nodes.length) ∧
    (∀ p cs q cs2 c, (p, cs) ∈ t.links → (q, cs2) ∈ t.links →
      c ∈ cs → c ∈ cs2 → p = q) := by
  obtain ⟨st, root, hc, hr, rfl⟩ := traverse_ok_elim h
  obtain ⟨h1, h2, h3⟩ := INV_consumeLoop INV_initState hc
  have hperm := asmGo_perm (enoughFuel [root] st.branches) st.nodes [root]
    st.branches
  have hnd : (flatVals
      (Tree.assemble_tree st.nodes root st.branches).2).Nodup :=
    List.Nodup.of_append_left (hperm.nodup_iff.mp h2)
  constructor
  · intro p cs hpcs c hcc
    have hcfv : c ∈ flatVals
        (Tree.assemble_tree st.nodes root st.branches).2 :=
      mem_flatVals.mpr ⟨(p, cs), hpcs, hcc⟩
    have hcb : c ∈ flatVals st.branches :=
      (hperm.mem_iff).mpr (List.mem_append_left _ hcfv)
    exact h1 c hcb
  · intro p cs q cs2 c hpm hqm hc1 hc2
    exact flatVals_nodup_unique_parent hnd hpm hqm hc1 hc2

/-- Witness for Claim C8 at a concrete input. -/
theorem claim8_witness :
    (1 : Nat) < (⟨[rNode, aNode], [(0, [1])], 0⟩ : Tree).nodes.length :=
  (claim8_tree_not_graph [.ongoing rNode, .ongoing aNode, .done]
    ⟨[rNode, aNode], [(0, [1])], 0⟩ rfl).1 0 [1] (by decide) 1 (by decide)

/-- Claim C9 (confirmed): for every constructed tree, `children_vec` returns
exactly the root's direct children as records, in the order the child ids
sit in the root's accumulator bucket at the end of consumption — the order
they were linked during assembly (arrival order among the retained
siblings), not sorted; the function only reads the tree. -/
theorem claim9_children_vec (msgs : List TraversalState) (st : CState)
    (root : Nat) (t : Tree)
    (hc : consumeLoop initState msgs = .ok st)
    (hr : st.rootId = some root)
    (ht : Tree.traverse msgs = .ok t) :
    t.children_vec =
      ((blookup st.branches (pathAt st.nodes root)).getD []).map
        (nodeAt st.nodes) ∧
    t.root = root ∧ t.nodes = st.nodes := by
  obtain ⟨st9, root9, hc9, hr9, hteq⟩ := traverse_ok_elim ht
  rw [hc] at hc9
  have hst : st9 = st := (Except.ok.inj hc9).symm
  have hro : root9 = root := by
    rw [hst] at hr9
    rw [hr] at hr9
    exact (Option.some.inj hr9).symm
  rw [hst, hro] at hteq
  obtain ⟨h1, h2, h3⟩ := INV_consumeLoop INV_initState hc
  obtain ⟨hrlt, hrnotin⟩ := h3 root hr
  rw [hteq]
  refine ⟨?_, rfl, rfl⟩
  show (linkChildren (Tree.assemble_tree st.nodes root st.branches).2
      root).map (nodeAt st.nodes) = _
  have hlc : linkChildren (Tree.assemble_tree st.nodes root st.branches).2
      root = (blookup st.branches (pathAt st.nodes root)).getD [] := by
    unfold linkChildren
    rw [assemble_tree_snd, List.filter_append]
    have hA : ((asmGo (st.branches.length + (flatVals st.branches).length)
        st.nodes
        (((blookup st.branches (pathAt st.nodes root)).getD []).filter
          (fun c => isDirAt st.nodes c))
        (bremove st.branches (pathAt st.nodes root))).2.filter
          (fun pr => pr.1 == root)) = [] := by
      rw [List.filter_eq_nil_iff]
      rintro ⟨pp, pcs⟩ hpr hbeq
      have hpp : pp = root := by simpa using hbeq
      rw [hpp] at hpr
      rcases asmGo_keys_sub _ st.nodes _ _ hpr with hw | hb
      · have hch := (List.mem_filter.mp hw).1
        cases hl : blookup st.branches (pathAt st.nodes root) with
        | none =>
          rw [hl] at hch
          simp at hch
        | some v =>
          rw [hl] at hch
          simp only [Option.getD_some] at hch
          exact hrnotin (mem_flatVals_of_lookup hl hch)
      · exact hrnotin
          ((flatVals_sublist (bremove_sublist st.branches _)).subset hb)
    rw [hA, List.nil_append]
    simp
  rw [hlc]

/-- Witness for Claim C9 at a concrete input. -/
theorem claim9_witness :
    Tree.children_vec ⟨[rNode, aNode], [(0, [1])], 0⟩ =
      ((blookup [("/r", [1])] "/r").getD []).map (nodeAt [rNode, aNode]) ∧
    (⟨[rNode, aNode], [(0, [1])], 0⟩ : Tree).root = 0 ∧
    (⟨[rNode, aNode], [(0, [1])], 0⟩ : Tree).nodes = [rNode, aNode] :=
  claim9_children_vec [.ongoing rNode, .ongoing aNode, .done]
    ⟨[rNode, aNode], [("/r", [1])], some 0⟩ 0
    ⟨[rNode, aNode], [(0, [1])], 0⟩ rfl rfl rfl

/-- Claim C10 (confirmed): whenever construction succeeds, the arena holds
exactly one node per `Ongoing` record received before `Done` — the arena
node count equals the number of received records (dropped-from-bucket
records included, as Claim C1's evaluation shows they stay in the arena
without being linked). -/
theorem claim10_arena_count (rs : List Node) (t : Tree)
    (h : Tree.traverse (rs.map .ongoing ++ [.done]) = .ok t) :
    t.nodes.length = rs.length := by
  obtain ⟨st, root, hc, hr, rfl⟩ := traverse_ok_elim h
  have hlen := consumeLoop_length hc
  simpa [initState] using hlen

/-- Witness for Claim C10 at a concrete input. -/
theorem claim10_witness :
    (⟨[rNode, aNode], [(0, [1])], 0⟩ : Tree).nodes.length =
      ([rNode, aNode] : List Node).length :=
  claim10_arena_count [rNode, aNode] ⟨[rNode, aNode], [(0, [1])], 0⟩ rfl

end MdSilo
